import Mathlib

/-!
Verification of the chunking core of `generate_benchmark_with_difficulty.py`
(the `load_pdfs` function): whitespace normalization, sentence segmentation,
greedy chunk accumulation with overlap, and batch statistics.

Strings are modelled as `List Char`.  Python's `int` is modelled as `Int`
(with `//` as `Int.fdiv`, floor division); character counts are `Nat`,
cast to `Int` where the source compares them with the configured size.
-/

namespace Benchmark

/-- Characters matched by the `\s` class of the script's regexes
(ASCII whitespace). -/
def isWS (c : Char) : Bool :=
  c = ' ' || c = '\t' || c = '\n' || c = '\r' || c = '\x0b' || c = '\x0c'

/-- Sentence terminator characters, the `[.!?]` class of line 68. -/
def isTerm (c : Char) : Bool :=
  c = '.' || c = '!' || c = '?'

/-- `re.sub(r'\s+', ' ', s)` from line 64: collapse each maximal run of
whitespace characters into a single space. -/
def subWS : List Char → List Char
  | [] => []
  | [c] => if isWS c then [' '] else [c]
  | c :: d :: rest =>
    if isWS c && isWS d then subWS (d :: rest)
    else (if isWS c then ' ' else c) :: subWS (d :: rest)

/-- Python `str.lstrip()`: drop leading whitespace. -/
def lstrip (l : List Char) : List Char := l.dropWhile isWS

/-- Python `str.rstrip()`: drop trailing whitespace. -/
def rstrip (l : List Char) : List Char := (l.reverse.dropWhile isWS).reverse

/-- Python `str.strip()`: drop leading and trailing whitespace. -/
def strip (l : List Char) : List Char := rstrip (lstrip l)

/-- Line 64: `re.sub(r'\s+', ' ', full_text).strip()`. -/
def normalize (l : List Char) : List Char := strip (subWS l)

/-- Scanner for `re.split(r'([.!?]+\s+)', text)` (line 68), one character
at a time.  `text` is the current text piece (reversed), `terms` a
pending terminator run (reversed), `ws` pending separator whitespace
(reversed, nonempty only once at least one whitespace followed the run).
A separator match is a maximal run of terminators immediately followed by
a maximal nonempty run of whitespace; the capture group makes `re.split`
keep the separators between the surrounding text pieces. -/
def splitScan : List Char → List Char → List Char → List Char → List (List Char)
  | [], text, terms, ws =>
    if ws.isEmpty then [(terms ++ text).reverse]
    else [text.reverse, (ws ++ terms).reverse, []]
  | c :: rest, text, terms, ws =>
    if ws.isEmpty then
      if terms.isEmpty then
        if isTerm c then splitScan rest text [c] []
        else splitScan rest (c :: text) [] []
      else
        if isTerm c then splitScan rest text (c :: terms) []
        else if isWS c then splitScan rest text terms [c]
        else splitScan rest (c :: (terms ++ text)) [] []
    else
      if isWS c then splitScan rest text terms (c :: ws)
      else
        text.reverse :: (ws ++ terms).reverse ::
          (if isTerm c then splitScan rest [] [c] []
           else splitScan rest [c] [] [])

/-- `re.split(r'([.!?]+\s+)', text)`: alternating text pieces and
separators, starting and ending with a (possibly empty) text piece. -/
def pySplitSent (l : List Char) : List (List Char) := splitScan l [] [] []

/-- Lines 69-73: recombine the split pieces two at a time
(`for i in range(0, len(sentences)-1, 2)`), keep `sentences[i] +
sentences[i+1]` stripped when non-empty.  A final unpaired piece is not
visited by the loop and is dropped. -/
def cleanPairs : List (List Char) → List (List Char)
  | t :: sep :: rest =>
    let s := strip (t ++ sep)
    if s.isEmpty then cleanPairs rest else s :: cleanPairs rest
  | _ => []

/-- Lines 68-73: the sentence segmenter applied to (already normalized)
text. -/
def cleanSentences (l : List Char) : List (List Char) :=
  cleanPairs (pySplitSent l)

/-- Working state of the accumulation loop of lines 77-107. -/
structure ChunkState where
  chunks : List (List Char)
  current : List Char
  buffer : List (List Char)
deriving DecidableEq, Repr

/-- Lines 90-98: the overlap loop.  `rev` is `reversed(sentence_buffer)`,
`oc` is `overlap_chunk`, `os` is `overlap_sentences`.  The loop breaks at
the first sentence for which `len(s + " " + overlap_chunk) < overlap_size`
fails. -/
def buildOverlap (osize : Int) : List (List Char) → List Char → List (List Char) →
    List Char × List (List Char)
  | [], oc, os => (oc, os)
  | s :: rest, oc, os =>
    let t := s ++ ' ' :: oc
    if (t.length : Int) < osize then buildOverlap osize rest t (s :: os)
    else (oc, os)

/-- Lines 81-104: the body of `for sent in clean_sentences`. -/
def stepSent (C : Int) (st : ChunkState) (sent : List Char) : ChunkState :=
  if ((st.current.length + sent.length + 1 : Nat) : Int) < C then
    ⟨st.chunks, st.current ++ sent ++ [' '], st.buffer ++ [sent]⟩
  else if st.current.isEmpty then
    ⟨st.chunks, sent ++ [' '], [sent]⟩
  else
    let p := buildOverlap (Int.fdiv C 4) st.buffer.reverse [] []
    ⟨st.chunks ++ [strip st.current], p.1 ++ sent ++ [' '], p.2 ++ [sent]⟩

/-- The accumulation loop folded over the sentence list. -/
def chunkLoop (C : Int) : List (List Char) → ChunkState → ChunkState
  | [], st => st
  | s :: rest, st => chunkLoop C rest (stepSent C st s)

/-- Lines 76-107: chunking one document's sentence list, including the
final flush of lines 106-107. -/
def pyChunks (sents : List (List Char)) (C : Int) : List (List Char) :=
  let st := chunkLoop C sents ⟨[], [], []⟩
  if st.current.isEmpty then st.chunks else st.chunks ++ [strip st.current]

/-- The per-document pipeline: normalize, segment, chunk. -/
def docChunks (doc : List Char) (C : Int) : List (List Char) :=
  pyChunks (cleanSentences (normalize doc)) C

/-- The running statistics dictionary of line 51 (`files`, `chunks`,
`total_chars`). -/
structure BatchStats where
  files : Nat
  chunks : Nat
  total_chars : Nat
deriving DecidableEq, Repr

/-- Lines 53-114, body of the per-file loop: a document is either a
successfully extracted raw text (`some raw`) or an extraction failure
(`none`, the `except` arm, which contributes nothing). -/
def processDoc (C : Int) (acc : List (List Char) × BatchStats)
    (doc : Option (List Char)) : List (List Char) × BatchStats :=
  match doc with
  | none => acc
  | some raw =>
    let ft := normalize raw
    let cs := pyChunks (cleanSentences ft) C
    (acc.1 ++ cs,
     ⟨acc.2.files, acc.2.chunks + cs.length, acc.2.total_chars + ft.length⟩)

/-- Lines 44-117: the whole batch.  `stats['files']` is the number of
input files, set before the loop. -/
def runBatch (C : Int) (inputs : List (Option (List Char))) :
    List (List Char) × BatchStats :=
  inputs.foldl (processDoc C) ([], ⟨inputs.length, 0, 0⟩)

/-! ### Whitespace and strip toolkit -/

/-- A string with no leading and no trailing whitespace, as produced by a
successful `.strip()`: nonempty, first and last characters not whitespace. -/
def Clean (l : List Char) : Prop :=
  l ≠ [] ∧ isWS (l.headD ' ') = false ∧ isWS (l.reverse.headD ' ') = false

instance (l : List Char) : Decidable (Clean l) := by
  unfold Clean; infer_instance

theorem rstrip_eq_rdropWhile (l : List Char) : rstrip l = l.rdropWhile isWS := rfl

theorem lstrip_nil : lstrip [] = [] := rfl

theorem rstrip_nil : rstrip [] = [] := rfl

theorem lstrip_cons_ws {c : Char} (h : isWS c = true) (l : List Char) :
    lstrip (c :: l) = lstrip l := by
  simp [lstrip, List.dropWhile_cons, h]

theorem lstrip_cons_nonws {c : Char} (h : isWS c = false) (l : List Char) :
    lstrip (c :: l) = c :: l := by
  simp [lstrip, List.dropWhile_cons, h]

theorem rstrip_concat_ws {c : Char} (h : isWS c = true) (l : List Char) :
    rstrip (l ++ [c]) = rstrip l := by
  rw [rstrip_eq_rdropWhile, rstrip_eq_rdropWhile]
  exact List.rdropWhile_concat_pos _ _ _ h

theorem rstrip_eq_nil_iff {l : List Char} : rstrip l = [] ↔ ∀ c ∈ l, isWS c = true := by
  rw [rstrip_eq_rdropWhile]
  simp [List.rdropWhile_eq_nil_iff]

theorem rstrip_prefixOf (l : List Char) : rstrip l <+: l := by
  rw [rstrip_eq_rdropWhile]
  exact List.rdropWhile_prefix _ _

theorem lstrip_suffix (l : List Char) : lstrip l <:+ l :=
  List.dropWhile_suffix _

theorem lstrip_head_not {l : List Char} {c : Char} {t : List Char}
    (h : lstrip l = c :: t) : isWS c = false := by
  have hw : lstrip l ≠ [] := by simp [h]
  have := List.head_dropWhile_not isWS l (by simpa [lstrip] using hw)
  have hh : (l.dropWhile isWS).head (by simpa [lstrip] using hw) = c := by
    have : lstrip l = l.dropWhile isWS := rfl
    simp [← this, h]
  rwa [hh] at this

theorem rstrip_append {a b : List Char} (h : rstrip b ≠ []) :
    rstrip (a ++ b) = a ++ rstrip b := by
  unfold rstrip at *
  have hb : b.reverse.dropWhile isWS ≠ [] := by
    intro hx; exact h (by rw [hx]; rfl)
  rw [List.reverse_append, List.dropWhile_append,
    if_neg (by simpa [List.isEmpty_iff] using hb),
    List.reverse_append, List.reverse_reverse]

theorem clean_head {c : Char} {t : List Char} (h : Clean (c :: t)) : isWS c = false := by
  simpa using h.2.1

theorem clean_ne_nil {l : List Char} (h : Clean l) : l ≠ [] := h.1

theorem lstrip_eq_self_of_clean {l : List Char} (h : Clean l) : lstrip l = l := by
  obtain ⟨hne, hh, -⟩ := h
  cases l with
  | nil => rfl
  | cons c t => exact lstrip_cons_nonws (by simpa using hh) t

theorem rstrip_eq_self_of_clean {l : List Char} (h : Clean l) : rstrip l = l := by
  obtain ⟨hne, -, hl⟩ := h
  have hrev : l.reverse ≠ [] := by simpa using hne
  obtain ⟨c, t, hct⟩ := List.exists_cons_of_ne_nil hrev
  have hc : isWS c = false := by rw [hct] at hl; simpa using hl
  unfold rstrip
  rw [hct, List.dropWhile_cons_of_neg (by simp [hc]), ← hct, List.reverse_reverse]

theorem strip_eq_self_of_clean {l : List Char} (h : Clean l) : strip l = l := by
  unfold strip
  rw [lstrip_eq_self_of_clean h, rstrip_eq_self_of_clean h]

theorem clean_of_strip_ne_nil {l : List Char} (h : strip l ≠ []) : Clean (strip l) := by
  refine ⟨h, ?_, ?_⟩
  · obtain ⟨c, t, hct⟩ := List.exists_cons_of_ne_nil h
    obtain ⟨r, hr⟩ := rstrip_prefixOf (lstrip l)
    have hsl : lstrip l = c :: (t ++ r) := by
      have h2 : strip l ++ r = lstrip l := hr
      rw [hct] at h2
      simpa using h2.symm
    have hns := lstrip_head_not hsl
    simp [hct, hns]
  · have hrev : (strip l).reverse = (lstrip l).reverse.dropWhile isWS := by
      unfold strip rstrip
      rw [List.reverse_reverse]
    have hne : (strip l).reverse ≠ [] := by simpa using h
    obtain ⟨c, t, hct⟩ := List.exists_cons_of_ne_nil hne
    have hc : isWS c = false := by
      have := List.head_dropWhile_not isWS (lstrip l).reverse
        (by rw [← hrev, hct]; simp)
      have hh : ((lstrip l).reverse.dropWhile isWS).head
          (by rw [← hrev, hct]; simp) = c := by
        simp [← hrev, hct]
      rwa [hh] at this
    simp [hct, hc]

theorem strip_append_space {s : List Char} (h : Clean s) : strip (s ++ [' ']) = s := by
  obtain ⟨c, t, hct⟩ := List.exists_cons_of_ne_nil h.1
  have hc : isWS c = false := by
    have hh := h.2.1; rw [hct] at hh; simpa using hh
  unfold strip
  have h1 : lstrip (s ++ [' ']) = s ++ [' '] := by
    rw [hct, List.cons_append]
    exact lstrip_cons_nonws hc _
  rw [h1, rstrip_concat_ws (by decide), rstrip_eq_self_of_clean h]

theorem strip_length_le (l : List Char) : (strip l).length ≤ l.length :=
  Nat.le_trans (rstrip_prefixOf (lstrip l)).length_le (lstrip_suffix l).length_le

/-! ### Spec-side normalizer: maximal whitespace runs replaced by one space,
ends trimmed.  Stated as: split the text into its maximal non-whitespace
runs and join them with single spaces. -/

/-- Maximal non-whitespace runs of `l`, in order; `acc` is the run in
progress. -/
def splitWSAux (l : List Char) (acc : List Char) : List (List Char) :=
  match l with
  | [] => if acc.isEmpty then [] else [acc]
  | c :: rest =>
    if isWS c then
      if acc.isEmpty then splitWSAux rest [] else acc :: splitWSAux rest []
    else splitWSAux rest (acc ++ [c])

/-- Maximal non-whitespace runs ("words") of a string. -/
def splitWS (l : List Char) : List (List Char) := splitWSAux l []

/-- Join words with exactly one space between consecutive words and
nothing at the ends. -/
def joinWords : List (List Char) → List Char
  | [] => []
  | [w] => w
  | w :: x :: xs => w ++ ' ' :: joinWords (x :: xs)

/-- The Normalizer contract as the spec words it: every maximal run of
whitespace replaced by a single space, leading and trailing whitespace
removed. -/
def normalizeSpec (l : List Char) : List Char := joinWords (splitWS l)

theorem joinWords_nil : joinWords [] = [] := rfl

theorem joinWords_singleton (w : List Char) : joinWords [w] = w := rfl

theorem joinWords_cons_cons (w x : List Char) (xs : List (List Char)) :
    joinWords (w :: x :: xs) = w ++ ' ' :: joinWords (x :: xs) := rfl

theorem splitWSAux_nil (acc : List Char) :
    splitWSAux [] acc = if acc.isEmpty then [] else [acc] := rfl

theorem splitWSAux_cons_ws {c : Char} (hc : isWS c = true) (rest acc : List Char) :
    splitWSAux (c :: rest) acc =
      if acc.isEmpty then splitWSAux rest [] else acc :: splitWSAux rest [] := by
  simp [splitWSAux, hc]

theorem splitWSAux_cons_nonws {c : Char} (hc : isWS c = false) (rest acc : List Char) :
    splitWSAux (c :: rest) acc = splitWSAux rest (acc ++ [c]) := by
  simp [splitWSAux, hc]

theorem splitWSAux_ne_nil : ∀ (l : List Char) {acc : List Char}, acc ≠ [] →
    splitWSAux l acc ≠ []
  | [], acc, h => by simp [splitWSAux_nil, List.isEmpty_iff, h]
  | c :: rest, acc, h => by
    by_cases hc : isWS c
    · rw [splitWSAux_cons_ws hc]
      simp [List.isEmpty_iff, h]
    · rw [splitWSAux_cons_nonws (by simpa using hc)]
      exact splitWSAux_ne_nil rest (by simp)

theorem subWS_cons_nonws {c : Char} (h : isWS c = false) (l : List Char) :
    subWS (c :: l) = c :: subWS l := by
  cases l with
  | nil => simp [subWS, h]
  | cons d rest => simp [subWS, h]

theorem subWS_singleton_ws {c : Char} (h : isWS c = true) : subWS [c] = [' '] := by
  simp [subWS, h]

theorem subWS_cons_ws_ws {c d : Char} (hc : isWS c = true) (hd : isWS d = true)
    (rest : List Char) : subWS (c :: d :: rest) = subWS (d :: rest) := by
  simp [subWS, hc, hd]

theorem subWS_cons_ws_nonws {c d : Char} (hc : isWS c = true) (hd : isWS d = false)
    (rest : List Char) : subWS (c :: d :: rest) = ' ' :: subWS (d :: rest) := by
  simp [subWS, hc, hd]

theorem lstrip_subWS_ws {c : Char} (hc : isWS c = true) (l : List Char) :
    lstrip (subWS (c :: l)) = lstrip (subWS l) := by
  cases l with
  | nil =>
    rw [subWS_singleton_ws hc]
    decide
  | cons d rest =>
    by_cases hd : isWS d
    · rw [subWS_cons_ws_ws hc hd]
    · rw [subWS_cons_ws_nonws hc (by simpa using hd), lstrip_cons_ws (by decide)]

theorem rstrip_eq_self_of_forall {w : List Char} (h : ∀ c ∈ w, isWS c = false) :
    rstrip w = w := by
  rw [rstrip_eq_rdropWhile, List.rdropWhile_eq_self_iff]
  intro hl
  simp [h _ (List.getLast_mem hl)]

theorem rstrip_ne_nil_of_mem {w : List Char} {c : Char} (hc : c ∈ w)
    (hws : isWS c = false) : rstrip w ≠ [] := by
  intro h
  rw [rstrip_eq_nil_iff] at h
  rw [h c hc] at hws
  simp at hws

/-- Main bridging lemma, word-in-progress form: with a nonempty all
non-whitespace prefix word `w`, right-stripping `w ++ subWS l` yields the
single-space join of the words of `l` continued from `w`. -/
theorem rstrip_subWS_word : ∀ (n : Nat) (l w : List Char), l.length ≤ n → w ≠ [] →
    (∀ c ∈ w, isWS c = false) →
    rstrip (w ++ subWS l) = joinWords (splitWSAux l w)
  | n, [], w, _, hw, hws => by
    rw [show subWS [] = [] from rfl, List.append_nil,
      rstrip_eq_self_of_forall hws, splitWSAux_nil,
      if_neg (by simpa [List.isEmpty_iff] using hw), joinWords_singleton]
  | Nat.succ n, c :: rest, w, hlen, hw, hws => by
    by_cases hc : isWS c
    · rw [splitWSAux_cons_ws hc, if_neg (by simpa [List.isEmpty_iff] using hw)]
      cases rest with
      | nil =>
        rw [subWS_singleton_ws hc, rstrip_concat_ws (by decide),
          rstrip_eq_self_of_forall hws]
        rfl
      | cons d rest2 =>
        by_cases hd : isWS d
        · rw [subWS_cons_ws_ws hc hd]
          have ih := rstrip_subWS_word n (d :: rest2) w
            (by simpa using Nat.le_of_succ_le_succ hlen) hw hws
          rw [ih, splitWSAux_cons_ws hd, if_neg (by simpa [List.isEmpty_iff] using hw),
            splitWSAux_cons_ws hd]
          simp
        · have hd : isWS d = false := by simpa using hd
          rw [subWS_cons_ws_nonws hc hd, subWS_cons_nonws hd]
          have hr2 : rest2.length ≤ n := by
            have := Nat.le_of_succ_le_succ hlen
            simpa using Nat.le_of_succ_le this
          have ih := rstrip_subWS_word n rest2 [d] hr2 (by simp)
            (by intro x hx; rw [List.mem_singleton.mp hx]; exact hd)
          have hrne : rstrip (d :: subWS rest2) ≠ [] :=
            rstrip_ne_nil_of_mem (List.mem_cons_self d _) hd
          have hre : w ++ ' ' :: d :: subWS rest2 = (w ++ [' ']) ++ (d :: subWS rest2) := by
            simp
          rw [hre, rstrip_append hrne]
          have ih2 : rstrip (d :: subWS rest2) = joinWords (splitWSAux rest2 [d]) := by
            simpa using ih
          rw [ih2, splitWSAux_cons_nonws hd]
          simp only [List.nil_append]
          obtain ⟨y, ys, hy⟩ := List.exists_cons_of_ne_nil
            (@splitWSAux_ne_nil rest2 [d] (by simp))
          rw [hy, joinWords_cons_cons]
          simp
    · have hc : isWS c = false := by simpa using hc
      rw [subWS_cons_nonws hc, splitWSAux_cons_nonws hc]
      have hre : w ++ c :: subWS rest = (w ++ [c]) ++ subWS rest := by simp
      rw [hre]
      exact rstrip_subWS_word n rest (w ++ [c])
        (Nat.le_of_succ_le_succ hlen) (by simp)
        (by intro x hx
            rcases List.mem_append.mp hx with h1 | h1
            · exact hws x h1
            · simpa using List.mem_singleton.mp h1 ▸ hc)

/-- The implementation normalizer and the spec normalizer agree. -/
theorem normalize_eq_spec_aux : ∀ (n : Nat) (l : List Char), l.length ≤ n →
    strip (subWS l) = joinWords (splitWSAux l [])
  | _, [], _ => rfl
  | Nat.succ n, c :: rest, hlen => by
    by_cases hc : isWS c
    · have h1 : strip (subWS (c :: rest)) = strip (subWS rest) := by
        unfold strip
        rw [lstrip_subWS_ws hc]
      rw [h1, normalize_eq_spec_aux n rest (Nat.le_of_succ_le_succ hlen),
        splitWSAux_cons_ws hc]
      simp
    · have hc : isWS c = false := by simpa using hc
      rw [subWS_cons_nonws hc, splitWSAux_cons_nonws hc]
      unfold strip
      rw [lstrip_cons_nonws hc]
      have hre : (c :: subWS rest : List Char) = [c] ++ subWS rest := rfl
      rw [hre]
      have := rstrip_subWS_word n rest [c] (Nat.le_of_succ_le_succ hlen)
        (by simp) (by simpa using hc)
      simpa using this

theorem normalize_eq_spec (l : List Char) : normalize l = normalizeSpec l :=
  normalize_eq_spec_aux l.length l Nat.le.refl

theorem splitWSAux_all_good : ∀ (l : List Char) (acc : List Char),
    (∀ c ∈ acc, isWS c = false) →
    ∀ w ∈ splitWSAux l acc, w ≠ [] ∧ ∀ c ∈ w, isWS c = false
  | [], acc, hacc => by
    rw [splitWSAux_nil]
    by_cases h : acc.isEmpty
    · simp [h]
    · intro w hw
      rw [if_neg h] at hw
      rw [List.mem_singleton.mp hw]
      exact ⟨by simpa [List.isEmpty_iff] using h, hacc⟩
  | c :: rest, acc, hacc => by
    by_cases hc : isWS c
    · rw [splitWSAux_cons_ws hc]
      by_cases h : acc.isEmpty
      · rw [if_pos h]
        exact splitWSAux_all_good rest [] (by simp)
      · rw [if_neg h]
        intro w hw
        rcases List.mem_cons.mp hw with h1 | h1
        · exact h1 ▸ ⟨by simpa [List.isEmpty_iff] using h, hacc⟩
        · exact splitWSAux_all_good rest [] (by simp) w h1
    · rw [splitWSAux_cons_nonws (by simpa using hc)]
      exact splitWSAux_all_good rest (acc ++ [c])
        (by intro x hx
            rcases List.mem_append.mp hx with h1 | h1
            · exact hacc x h1
            · rw [List.mem_singleton.mp h1]; simpa using hc)

theorem splitWSAux_append_word : ∀ (w l acc : List Char),
    (∀ c ∈ w, isWS c = false) →
    splitWSAux (w ++ l) acc = splitWSAux l (acc ++ w)
  | [], l, acc, _ => by simp
  | c :: w, l, acc, hw => by
    have hc : isWS c = false := hw c (List.mem_cons_self c w)
    rw [List.cons_append, splitWSAux_cons_nonws hc,
      splitWSAux_append_word w l (acc ++ [c]) (fun x hx => hw x (List.mem_cons_of_mem c hx))]
    simp

theorem splitWS_word (w : List Char) (hne : w ≠ []) (hw : ∀ c ∈ w, isWS c = false) :
    splitWS w = [w] := by
  unfold splitWS
  have := splitWSAux_append_word w [] [] hw
  rw [List.append_nil] at this
  rw [this, splitWSAux_nil, if_neg (by simpa [List.isEmpty_iff] using hne)]
  simp

theorem splitWS_joinWords : ∀ (ws : List (List Char)),
    (∀ w ∈ ws, w ≠ [] ∧ ∀ c ∈ w, isWS c = false) →
    splitWS (joinWords ws) = ws
  | [], _ => rfl
  | [w], h => by
    rw [joinWords_singleton]
    exact splitWS_word w (h w (List.mem_singleton_self w)).1 (h w (List.mem_singleton_self w)).2
  | w :: x :: xs, h => by
    rw [joinWords_cons_cons]
    unfold splitWS
    rw [splitWSAux_append_word w (' ' :: joinWords (x :: xs)) []
        (h w (List.mem_cons_self w _)).2,
      List.nil_append, splitWSAux_cons_ws (by decide),
      if_neg (by simpa [List.isEmpty_iff] using (h w (List.mem_cons_self w _)).1)]
    have ih := splitWS_joinWords (x :: xs) (fun y hy => h y (List.mem_cons_of_mem w hy))
    unfold splitWS at ih
    rw [ih]

/-- C8: the normalizer equals the spec description (words joined by
single spaces), maps the empty string to the empty string, and is
idempotent. -/
theorem normalizer_spec (s : List Char) :
    normalize s = normalizeSpec s ∧ normalize [] = [] ∧
    normalize (normalize s) = normalize s := by
  refine ⟨normalize_eq_spec s, rfl, ?_⟩
  rw [normalize_eq_spec (normalize s), normalize_eq_spec s]
  unfold normalizeSpec
  rw [splitWS_joinWords (splitWS s) (splitWSAux_all_good s [] (by simp))]

/-- Witness for C8 at a concrete string. -/
theorem normalizer_spec_witness :
    normalize (" a \t b ".toList) = normalizeSpec (" a \t b ".toList) ∧
    normalize [] = [] ∧
    normalize (normalize (" a \t b ".toList)) = normalize (" a \t b ".toList) :=
  normalizer_spec (" a \t b ".toList)

/-! ### Segmenter evaluations (claims C1, C2) -/

/-- C1: the segmenter of lines 68-73, evaluated at the claim's edge cases.
A document with no terminator yields no sentence at all (not the whole
text), and the final unmatched fragment "B" of "A. B" is dropped (not
retained): the loop bound `len(sentences)-1` never pairs the last split
piece. -/
theorem segmenter_drops_final_fragment :
    cleanSentences (normalize ("A".toList)) = [] ∧
    cleanSentences (normalize ("A. B".toList)) = ["A.".toList] := by
  constructor <;> decide

/-- C2: the full pipeline evaluated at the spec's concrete scenario 1.
The input "A. B. C." with target size 100 yields sentence list
["A.", "B."] (the final "C." is dropped) and the single chunk "A. B.",
not "A. B. C.". -/
theorem scenario1_actual_output :
    cleanSentences (normalize ("A. B. C.".toList)) = ["A.".toList, "B.".toList] ∧
    docChunks ("A. B. C.".toList) 100 = ["A. B.".toList] ∧
    ("A. B.".toList : List Char) ≠ "A. B. C.".toList := by
  refine ⟨by decide, by decide, by decide⟩

/-! ### The overlap rule (claim C3) -/

/-- Sentence list joined with one trailing space after every sentence:
the shape `current_chunk` always has. -/
def joinSp (ls : List (List Char)) : List Char :=
  (ls.map (fun s => s ++ [' '])).flatten

theorem joinSp_nil : joinSp [] = [] := rfl

theorem joinSp_cons (s : List Char) (ls : List (List Char)) :
    joinSp (s :: ls) = (s ++ [' ']) ++ joinSp ls := by
  simp [joinSp]

theorem joinSp_append (a b : List (List Char)) :
    joinSp (a ++ b) = joinSp a ++ joinSp b := by
  simp [joinSp]

theorem joinSp_ne_nil {ls : List (List Char)} (h : ls ≠ []) : joinSp ls ≠ [] := by
  obtain ⟨s, rest, rfl⟩ := List.exists_cons_of_ne_nil h
  rw [joinSp_cons]
  simp

/-- The overlap selection rule exactly as the claim words it: scan the
buffer from most recent to least recent, include a sentence while
`len(s) + len(overlapText) < O` (not counting the separator space), stop
at the first violation.  `rev` is the reversed buffer, `n` the length of
the overlap text built so far; the result lists the included sentences in
original order. -/
def overlapClaimRev (O : Int) : List (List Char) → Nat → List (List Char)
  | [], _ => []
  | s :: rest, n =>
    if ((s.length + n : Nat) : Int) < O then
      overlapClaimRev O rest (s.length + 1 + n) ++ [s]
    else []

/-- The corrected rule: include a sentence while
`len(s) + 1 + len(overlapText) < O`, counting the separator space that
the code's `s + " " + overlap_chunk` inserts. -/
def overlapAmendedRev (O : Int) : List (List Char) → Nat → List (List Char)
  | [], _ => []
  | s :: rest, n =>
    if ((s.length + 1 + n : Nat) : Int) < O then
      overlapAmendedRev O rest (s.length + 1 + n) ++ [s]
    else []

/-- The code's overlap loop computes exactly the corrected rule, with the
overlap text being the space-joined included sentences. -/
theorem buildOverlap_eq_amended : ∀ (rev : List (List Char)) (O : Int)
    (oc : List Char) (os : List (List Char)),
    buildOverlap O rev oc os =
      (joinSp (overlapAmendedRev O rev oc.length) ++ oc,
       overlapAmendedRev O rev oc.length ++ os)
  | [], O, oc, os => by simp [buildOverlap, overlapAmendedRev, joinSp_nil]
  | s :: rest, O, oc, os => by
    have hl : (s ++ ' ' :: oc).length = s.length + 1 + oc.length := by
      simp [List.length_append]
      omega
    simp only [buildOverlap, overlapAmendedRev, hl]
    by_cases h : ((s.length + 1 + oc.length : Nat) : Int) < O
    · rw [if_pos h, if_pos h, buildOverlap_eq_amended rest O (s ++ ' ' :: oc) (s :: os), hl]
      simp only [Prod.mk.injEq]
      constructor
      · rw [joinSp_append]
        simp [joinSp_cons, joinSp_nil]
      · simp
    · rw [if_neg h, if_neg h]
      simp [joinSp_nil]

theorem overlapAmendedRev_suffix : ∀ (rev : List (List Char)) (O : Int) (n : Nat),
    overlapAmendedRev O rev n <:+ rev.reverse
  | [], _, _ => by simp [overlapAmendedRev]
  | s :: rest, O, n => by
    simp only [overlapAmendedRev]
    by_cases h : ((s.length + 1 + n : Nat) : Int) < O
    · rw [if_pos h]
      obtain ⟨u, hu⟩ := overlapAmendedRev_suffix rest O (s.length + 1 + n)
      exact ⟨u, by rw [List.reverse_cons, ← List.append_assoc, hu]⟩
    · rw [if_neg h]
      exact List.nil_suffix

theorem overlapAmendedRev_subset {rev : List (List Char)} {O : Int} {n : Nat}
    {x : List Char} (hx : x ∈ overlapAmendedRev O rev n) : x ∈ rev := by
  have h1 := (overlapAmendedRev_suffix rev O n).subset hx
  exact List.mem_reverse.mp h1

theorem overlapAmendedRev_length : ∀ (rev : List (List Char)) (O : Int) (n : Nat),
    overlapAmendedRev O rev n = [] ∨
      (((joinSp (overlapAmendedRev O rev n)).length + n : Nat) : Int) < O
  | [], _, _ => Or.inl rfl
  | s :: rest, O, n => by
    simp only [overlapAmendedRev]
    by_cases h : ((s.length + 1 + n : Nat) : Int) < O
    · rw [if_pos h]
      right
      rcases overlapAmendedRev_length rest O (s.length + 1 + n) with h1 | h1
      · rw [h1]
        simpa [joinSp_cons, joinSp_nil] using h
      · rw [joinSp_append]
        simp only [List.length_append]
        have hx : (joinSp [s]).length = s.length + 1 := by simp [joinSp_cons, joinSp_nil]
        rw [hx]
        push_cast at h1 ⊢
        omega
    · rw [if_neg h]
      exact Or.inl rfl

/-- C3 (amended): whenever the accumulator emits a chunk with non-empty
accumulated text, the state seeded for the next chunk is given by the
stop-at-first-violation scan with bound `len(s) + 1 + len(overlapText) <
floor(C/4)` (the separator space counts), and the overlap sentences are a
suffix of the old buffer, hence keep their original relative order. -/
theorem overlap_amended_rule (C : Int) (st : ChunkState) (sent : List Char)
    (hfull : ¬ ((st.current.length + sent.length + 1 : Nat) : Int) < C)
    (hne : st.current ≠ []) :
    stepSent C st sent =
      ⟨st.chunks ++ [strip st.current],
       joinSp (overlapAmendedRev (Int.fdiv C 4) st.buffer.reverse 0) ++ sent ++ [' '],
       overlapAmendedRev (Int.fdiv C 4) st.buffer.reverse 0 ++ [sent]⟩ ∧
    overlapAmendedRev (Int.fdiv C 4) st.buffer.reverse 0 <:+ st.buffer := by
  constructor
  · unfold stepSent
    rw [if_neg hfull, if_neg (by simpa [List.isEmpty_iff] using hne)]
    have h := buildOverlap_eq_amended st.buffer.reverse (Int.fdiv C 4) [] []
    simp only [List.length_nil, List.append_nil] at h
    rw [h]
  · have h := overlapAmendedRev_suffix st.buffer.reverse (Int.fdiv C 4) 0
    rwa [List.reverse_reverse] at h

/-- Witness for the amended C3 rule at a concrete emission event. -/
theorem overlap_amended_rule_witness :
    (¬ ((("ab ".toList).length + ("cdefghij".toList).length + 1 : Nat) : Int) < 12) ∧
    (stepSent 12 ⟨[], "ab ".toList, ["ab".toList]⟩ ("cdefghij".toList) =
      ⟨[strip ("ab ".toList)],
       joinSp (overlapAmendedRev (Int.fdiv 12 4) (["ab".toList]).reverse 0) ++
         ("cdefghij".toList) ++ [' '],
       overlapAmendedRev (Int.fdiv 12 4) (["ab".toList]).reverse 0 ++ [("cdefghij".toList)]⟩ ∧
     overlapAmendedRev (Int.fdiv 12 4) (["ab".toList]).reverse 0 <:+ ["ab".toList]) :=
  ⟨by decide, overlap_amended_rule 12 ⟨[], "ab ".toList, ["ab".toList]⟩ ("cdefghij".toList)
    (by decide) (by decide)⟩

/-- Counterexample to C3 as stated: with target size 12 (overlap budget
3) and buffer ["ab"], the claim's bound `len(s) + len(overlapText) < 3`
admits "ab" (2 < 3), but the code's `len("ab ") < 3` rejects it, so the
seeded buffer after this emission is only the new sentence. -/
theorem overlap_claim_counterexample :
    (stepSent 12 ⟨[], "ab ".toList, ["ab".toList]⟩ ("cdefghij".toList)).buffer ≠
      overlapClaimRev (Int.fdiv 12 4) (["ab".toList]).reverse 0 ++ [("cdefghij".toList)] ∧
    (stepSent 12 ⟨[], "ab ".toList, ["ab".toList]⟩ ("cdefghij".toList)).chunks =
      [("ab".toList)] := by
  constructor <;> decide

/-! ### Chunk accumulator invariants -/

theorem joinSp_eq_joinWords : ∀ {ls : List (List Char)}, ls ≠ [] →
    joinSp ls = joinWords ls ++ [' ']
  | [x], _ => by simp [joinSp_cons, joinSp_nil, joinWords_singleton]
  | x :: y :: ys, _ => by
    rw [joinSp_cons, joinSp_eq_joinWords (List.cons_ne_nil y ys), joinWords_cons_cons]
    simp


theorem joinWords_clean : ∀ {ls : List (List Char)}, ls ≠ [] →
    (∀ x ∈ ls, Clean x) → Clean (joinWords ls)
  | [x], _, h => by
    rw [joinWords_singleton]
    exact h x (List.mem_singleton_self x)
  | x :: y :: ys, _, h => by
    rw [joinWords_cons_cons]
    have hx : Clean x := h x (List.mem_cons_self x _)
    have ih : Clean (joinWords (y :: ys)) :=
      joinWords_clean (List.cons_ne_nil y ys) (fun z hz => h z (List.mem_cons_of_mem x hz))
    obtain ⟨c, t, hct⟩ := List.exists_cons_of_ne_nil hx.1
    have hJ : (joinWords (y :: ys)).reverse ≠ [] := by
      simpa using ih.1
    obtain ⟨c2, t2, hct2⟩ := List.exists_cons_of_ne_nil hJ
    refine ⟨by simp, ?_, ?_⟩
    · rw [hct]
      have hc := hx.2.1
      rw [hct] at hc
      simpa using hc
    · have hc2 := ih.2.2
      rw [hct2] at hc2
      simp only [List.headD_cons] at hc2
      rw [List.reverse_append, List.reverse_cons, hct2]
      simpa using hc2

theorem strip_joinSp {ls : List (List Char)} (h : ∀ x ∈ ls, Clean x) :
    strip (joinSp ls) = joinWords ls := by
  cases hls : ls with
  | nil => rfl
  | cons x xs =>
    rw [← hls, joinSp_eq_joinWords (by rw [hls]; exact List.cons_ne_nil x xs),
      strip_append_space (joinWords_clean (by rw [hls]; exact List.cons_ne_nil x xs) h)]

theorem mem_joinWords_infix : ∀ {ls : List (List Char)} {x : List Char}, x ∈ ls →
    x <:+: joinWords ls
  | [y], x, hx => by
    rw [joinWords_singleton, List.mem_singleton.mp hx]
  | y :: z :: zs, x, hx => by
    rw [joinWords_cons_cons]
    rcases List.mem_cons.mp hx with h1 | h1
    · exact ⟨[], ' ' :: joinWords (z :: zs), by rw [h1]; simp⟩
    · obtain ⟨u, v, huv⟩ := mem_joinWords_infix h1
      exact ⟨y ++ ' ' :: u, v, by rw [← huv]; simp⟩

/-- The chunk string determined by one emitted buffer: overlap sentences
then home sentences, joined by single spaces. -/
def chunkOf (p : List (List Char) × List (List Char)) : List Char :=
  joinWords (p.1 ++ p.2)

/-- The loop invariant of the accumulation loop: the emitted chunks are
the space-joins of earlier buffers, each split into an overlap part and a
nonempty home part; the home parts concatenated with the current home
make up exactly the processed sentences in order; the working string is
the space-join (with trailing spaces) of the buffer. -/
def Inv (processed : List (List Char)) (st : ChunkState) : Prop :=
  ∃ decomp : List (List (List Char) × List (List Char)),
  ∃ curOv curH : List (List Char),
    st.chunks = decomp.map chunkOf ∧
    processed = (decomp.map Prod.snd).flatten ++ curH ∧
    st.buffer = curOv ++ curH ∧
    st.current = joinSp st.buffer ∧
    (∀ p ∈ decomp, p.2 ≠ []) ∧
    (curOv = [] ∨ curH ≠ []) ∧
    (∀ b ∈ st.buffer, b ∈ processed) ∧
    (∀ p ∈ decomp, ∀ b ∈ p.1 ++ p.2, b ∈ processed)

theorem inv_init : Inv [] ⟨[], [], []⟩ := by
  exact ⟨[], [], [], rfl, rfl, rfl, rfl, by simp, Or.inl rfl, by simp, by simp⟩

theorem stepSent_inv {C : Int} {st : ChunkState} {sent : List Char}
    {processed : List (List Char)}
    (hclean : ∀ s ∈ processed, Clean s)
    (hinv : Inv processed st) :
    Inv (processed ++ [sent]) (stepSent C st sent) := by
  obtain ⟨decomp, curOv, curH, h1, h2, h3, h4, h5, h6, h7, h8⟩ := hinv
  unfold stepSent
  by_cases hlt : ((st.current.length + sent.length + 1 : Nat) : Int) < C
  · rw [if_pos hlt]
    refine ⟨decomp, curOv, curH ++ [sent], h1, ?_, ?_, ?_, h5, Or.inr (by simp), ?_, ?_⟩
    · rw [h2, List.append_assoc]
    · show st.buffer ++ [sent] = curOv ++ (curH ++ [sent])
      rw [h3, List.append_assoc]
    · simp only
      rw [h4, joinSp_append]
      simp [joinSp_cons, joinSp_nil]
    · intro b hb
      simp only at hb
      rcases List.mem_append.mp hb with hb1 | hb1
      · exact List.mem_append_left _ (h7 b hb1)
      · exact List.mem_append_right _ hb1
    · intro p hp b hb
      exact List.mem_append_left _ (h8 p hp b hb)
  · rw [if_neg hlt]
    by_cases hemp : st.current.isEmpty
    · rw [if_pos hemp]
      have hcur : st.current = [] := List.isEmpty_iff.mp hemp
      have hbuf : st.buffer = [] := by
        by_contra hne
        exact joinSp_ne_nil hne (hcur ▸ h4.symm)
      have hOv : curOv = [] := (List.append_eq_nil.mp (hbuf ▸ h3.symm)).1
      have hH : curH = [] := (List.append_eq_nil.mp (hbuf ▸ h3.symm)).2
      refine ⟨decomp, [], [sent], h1, ?_, by simp, ?_, h5, Or.inl rfl, ?_, ?_⟩
      · rw [h2, hH]
        simp
      · simp [joinSp_cons, joinSp_nil]
      · intro b hb
        simp only at hb
        exact List.mem_append_right _ hb
      · intro p hp b hb
        exact List.mem_append_left _ (h8 p hp b hb)
    · rw [if_neg hemp]
      have hbufne : st.buffer ≠ [] := by
        intro hb
        apply hemp
        rw [List.isEmpty_iff, h4, hb]
        rfl
      have hHne : curH ≠ [] := by
        intro hH
        rcases h6 with h6 | h6
        · exact hbufne (by rw [h3, h6, hH]; rfl)
        · exact h6 hH
      have hover := buildOverlap_eq_amended st.buffer.reverse (Int.fdiv C 4) [] []
      simp only [List.length_nil, List.append_nil] at hover
      rw [hover]
      have hstrip : strip st.current = joinWords st.buffer := by
        rw [h4]
        exact strip_joinSp (fun x hx => hclean x (h7 x hx))
      refine ⟨decomp ++ [(curOv, curH)],
        overlapAmendedRev (Int.fdiv C 4) st.buffer.reverse 0, [sent], ?_, ?_, rfl, ?_, ?_,
        Or.inr (by simp), ?_, ?_⟩
      · simp only [List.map_append, List.map_cons, List.map_nil]
        rw [hstrip, h3, h1]
        rfl
      · rw [h2]
        simp [List.append_assoc]
      · simp only
        rw [joinSp_append]
        simp [joinSp_cons, joinSp_nil]
      · intro p hp
        rcases List.mem_append.mp hp with hp1 | hp1
        · exact h5 p hp1
        · rw [List.mem_singleton.mp hp1]
          exact hHne
      · intro b hb
        simp only at hb
        rcases List.mem_append.mp hb with hb1 | hb1
        · exact List.mem_append_left _
            (h7 b (List.mem_reverse.mp (overlapAmendedRev_subset hb1)))
        · exact List.mem_append_right _ hb1
      · intro p hp b hb
        rcases List.mem_append.mp hp with hp1 | hp1
        · exact List.mem_append_left _ (h8 p hp1 b hb)
        · rw [List.mem_singleton.mp hp1] at hb
          exact List.mem_append_left _ (h7 b (h3 ▸ hb))

theorem chunkLoop_inv {C : Int} : ∀ (rest processed : List (List Char)) (st : ChunkState),
    (∀ s ∈ processed ++ rest, Clean s) → Inv processed st →
    Inv (processed ++ rest) (chunkLoop C rest st)
  | [], processed, st, _, hinv => by simpa using hinv
  | s :: rest, processed, st, hclean, hinv => by
    have hstep := @stepSent_inv C st s processed
      (fun x hx => hclean x (List.mem_append_left _ hx)) hinv
    have ih := chunkLoop_inv (C := C) rest (processed ++ [s]) (stepSent C st s)
      (by intro x hx
          rcases List.mem_append.mp hx with h1 | h1
          · rcases List.mem_append.mp h1 with h2 | h2
            · exact hclean x (List.mem_append_left _ h2)
            · exact hclean x (List.mem_append_right _
                (by rw [List.mem_singleton.mp h2]; exact List.mem_cons_self s rest))
          · exact hclean x (List.mem_append_right _ (List.mem_cons_of_mem s h1)))
      hstep
    rw [List.append_assoc] at ih
    simpa using ih

/-- Structure of a full run: the emitted chunks are exactly the
space-joins of a sequence of buffers, each split into overlap and
nonempty home parts, with the home parts concatenating to the input
sentence list in document order. -/
theorem pyChunks_decomp (sents : List (List Char)) (C : Int)
    (hclean : ∀ s ∈ sents, Clean s) :
    ∃ decomp : List (List (List Char) × List (List Char)),
      pyChunks sents C = decomp.map chunkOf ∧
      (decomp.map Prod.snd).flatten = sents ∧
      (∀ p ∈ decomp, p.2 ≠ []) ∧
      (∀ p ∈ decomp, ∀ b ∈ p.1 ++ p.2, b ∈ sents) := by
  have hinv := chunkLoop_inv (C := C) sents [] ⟨[], [], []⟩ (by simpa using hclean) inv_init
  rw [List.nil_append] at hinv
  obtain ⟨decomp, curOv, curH, h1, h2, h3, h4, h5, h6, h7, h8⟩ := hinv
  unfold pyChunks
  by_cases hemp : (chunkLoop C sents ⟨[], [], []⟩).current.isEmpty
  · rw [if_pos hemp]
    have hcur : (chunkLoop C sents ⟨[], [], []⟩).current = [] := List.isEmpty_iff.mp hemp
    have hbuf : (chunkLoop C sents ⟨[], [], []⟩).buffer = [] := by
      by_contra hne
      exact joinSp_ne_nil hne (h4.symm.trans hcur)
    have hH : curH = [] := (List.append_eq_nil.mp (hbuf ▸ h3.symm)).2
    exact ⟨decomp, h1, by rw [h2, hH]; simp, h5, h8⟩
  · rw [if_neg hemp]
    have hbufne : (chunkLoop C sents ⟨[], [], []⟩).buffer ≠ [] := by
      intro hb
      apply hemp
      rw [List.isEmpty_iff, h4, hb]
      rfl
    have hHne : curH ≠ [] := by
      intro hH
      rcases h6 with h6 | h6
      · exact hbufne (by rw [h3, h6, hH]; rfl)
      · exact h6 hH
    have hstrip : strip (chunkLoop C sents ⟨[], [], []⟩).current =
        joinWords (chunkLoop C sents ⟨[], [], []⟩).buffer := by
      rw [h4]
      exact strip_joinSp (fun x hx => hclean x (h7 x hx))
    refine ⟨decomp ++ [(curOv, curH)], ?_, ?_, ?_, ?_⟩
    · simp only [List.map_append, List.map_cons, List.map_nil]
      rw [hstrip, h3, h1]
      rfl
    · rw [h2]
      simp
    · intro p hp
      rcases List.mem_append.mp hp with hp1 | hp1
      · exact h5 p hp1
      · rw [List.mem_singleton.mp hp1]
        exact hHne
    · intro p hp b hb
      rcases List.mem_append.mp hp with hp1 | hp1
      · exact h8 p hp1 b hb
      · rw [List.mem_singleton.mp hp1] at hb
        exact h7 b (h3 ▸ hb)

/-! ### Segmenter output is clean -/

theorem cleanPairs_nil : cleanPairs [] = [] := rfl

theorem cleanPairs_single (t : List Char) : cleanPairs [t] = [] := rfl

theorem cleanPairs_cons (t sep : List Char) (rest : List (List Char)) :
    cleanPairs (t :: sep :: rest) =
      if (strip (t ++ sep)).isEmpty then cleanPairs rest
      else strip (t ++ sep) :: cleanPairs rest := rfl

theorem cleanPairs_clean : ∀ (pieces : List (List Char)), ∀ s ∈ cleanPairs pieces, Clean s
  | [], s, hs => by rw [cleanPairs_nil] at hs; exact absurd hs (List.not_mem_nil s)
  | [t], s, hs => by rw [cleanPairs_single] at hs; exact absurd hs (List.not_mem_nil s)
  | t :: sep :: rest, s, hs => by
    rw [cleanPairs_cons] at hs
    by_cases h : (strip (t ++ sep)).isEmpty
    · rw [if_pos h] at hs
      exact cleanPairs_clean rest s hs
    · rw [if_neg h] at hs
      rcases List.mem_cons.mp hs with h1 | h1
      · rw [h1]
        exact clean_of_strip_ne_nil (by simpa [List.isEmpty_iff] using h)
      · exact cleanPairs_clean rest s h1

theorem cleanSentences_clean (l : List Char) : ∀ s ∈ cleanSentences l, Clean s :=
  cleanPairs_clean (pySplitSent l)

/-! ### Claim C4: coverage, alignment and order -/

/-- C4: for the sentence list the segmenter produces for a document, the
emitted chunks decompose into per-chunk sentence buffers (overlap part
plus nonempty home part) whose home parts concatenate to exactly the
sentence list in document order; every chunk is a space-join of input
sentences (no sentence is truncated), every sentence occurs verbatim
(as a contiguous substring) in at least one chunk, and an empty sentence
list yields zero chunks. -/
theorem chunk_coverage (doc : List Char) (C : Int) :
    ∃ decomp : List (List (List Char) × List (List Char)),
      docChunks doc C = decomp.map chunkOf ∧
      (decomp.map Prod.snd).flatten = cleanSentences (normalize doc) ∧
      (∀ p ∈ decomp, p.2 ≠ [] ∧ ∀ b ∈ p.1 ++ p.2, b ∈ cleanSentences (normalize doc)) ∧
      (∀ s ∈ cleanSentences (normalize doc), ∃ c ∈ docChunks doc C, s <:+: c) ∧
      (cleanSentences (normalize doc) = [] → docChunks doc C = []) := by
  obtain ⟨decomp, hA, hB, hN, hD⟩ := pyChunks_decomp (cleanSentences (normalize doc)) C
    (cleanSentences_clean (normalize doc))
  refine ⟨decomp, hA, hB, fun p hp => ⟨hN p hp, hD p hp⟩, ?_, ?_⟩
  · intro s hs
    rw [← hB] at hs
    obtain ⟨l, hl, hsl⟩ := List.mem_flatten.mp hs
    obtain ⟨p, hp, hpl⟩ := List.mem_map.mp hl
    refine ⟨chunkOf p, ?_, ?_⟩
    · show chunkOf p ∈ pyChunks (cleanSentences (normalize doc)) C
      rw [hA]
      exact List.mem_map_of_mem chunkOf hp
    · exact mem_joinWords_infix (List.mem_append_right p.1 (by rw [hpl]; exact hsl))
  · intro hnil
    have hdec : decomp = [] := by
      cases hd : decomp with
      | nil => rfl
      | cons p ps =>
        rw [hd, hnil] at hB
        simp only [List.map_cons, List.flatten_cons] at hB
        exact absurd (List.append_eq_nil.mp hB).1 (hN p (by rw [hd]; exact List.mem_cons_self p ps))
    show pyChunks (cleanSentences (normalize doc)) C = []
    rw [hA, hdec]
    rfl

/-- Witness for C4 at a concrete document. -/
theorem chunk_coverage_witness :
    ∃ decomp : List (List (List Char) × List (List Char)),
      docChunks ("A. B. C. D.".toList) 9 = decomp.map chunkOf ∧
      (decomp.map Prod.snd).flatten = cleanSentences (normalize ("A. B. C. D.".toList)) ∧
      (∀ p ∈ decomp, p.2 ≠ [] ∧
        ∀ b ∈ p.1 ++ p.2, b ∈ cleanSentences (normalize ("A. B. C. D.".toList))) ∧
      (∀ s ∈ cleanSentences (normalize ("A. B. C. D.".toList)),
        ∃ c ∈ docChunks ("A. B. C. D.".toList) 9, s <:+: c) ∧
      (cleanSentences (normalize ("A. B. C. D.".toList)) = [] →
        docChunks ("A. B. C. D.".toList) 9 = []) :=
  chunk_coverage ("A. B. C. D.".toList) 9

/-! ### Claim C5: chunk size bound -/

theorem fdiv4_nonneg {a : Int} (h : 0 ≤ a) : 0 ≤ Int.fdiv a 4 :=
  Int.fdiv_nonneg h (by decide)

theorem fdiv4_nonpos {a : Int} (h : a ≤ 0) : Int.fdiv a 4 ≤ 0 := by
  match a, h with
  | Int.ofNat 0, _ => decide
  | Int.ofNat (n + 1), h => exact absurd h (by simp)
  | Int.negSucc m, _ =>
    show Int.negSucc (m / 4) ≤ 0
    exact Int.le_of_lt (Int.negSucc_lt_zero _)

/-- Maximum sentence length of a document's sentence list. -/
def maxLen (ls : List (List Char)) : Nat :=
  ls.foldr (fun s m => max s.length m) 0

theorem length_le_maxLen : ∀ {ls : List (List Char)} {s : List Char}, s ∈ ls →
    s.length ≤ maxLen ls
  | l :: rest, s, h => by
    rcases List.mem_cons.mp h with h1 | h1
    · rw [h1]
      exact Nat.le_max_left _ _
    · exact Nat.le_trans (length_le_maxLen h1) (Nat.le_max_right _ _)

/-- Length invariant of the accumulation loop for target size `C` and
sentence-length bound `L`. -/
def LenInv (C L : Int) (st : ChunkState) : Prop :=
  (∀ c ∈ st.chunks, (c.length : Int) < C + L + Int.fdiv C 4) ∧
  ((st.current.length : Int) < C ∨ (st.current.length : Int) ≤ Int.fdiv C 4 + L + 1)

theorem stepSent_len {C L : Int} {st : ChunkState} {sent : List Char}
    {processed : List (List Char)}
    (hC : 0 < C) (hL : 0 ≤ L)
    (hsent : (sent.length : Int) ≤ L)
    (hclean : ∀ s ∈ processed, Clean s)
    (hinv : Inv processed st)
    (hlen : LenInv C L st) :
    LenInv C L (stepSent C st sent) := by
  have hO : 0 ≤ Int.fdiv C 4 := fdiv4_nonneg (le_of_lt hC)
  obtain ⟨decomp, curOv, curH, h1, h2, h3, h4, h5, h6, h7, h8⟩ := hinv
  unfold stepSent
  by_cases hlt : ((st.current.length + sent.length + 1 : Nat) : Int) < C
  · rw [if_pos hlt]
    refine ⟨hlen.1, Or.inl ?_⟩
    show (((st.current ++ sent ++ [' ']).length : Nat) : Int) < C
    have hx : (st.current ++ sent ++ [' ']).length =
        st.current.length + sent.length + 1 := by
      simp
      omega
    rw [hx]
    exact hlt
  · rw [if_neg hlt]
    by_cases hemp : st.current.isEmpty
    · rw [if_pos hemp]
      refine ⟨hlen.1, Or.inr ?_⟩
      show (((sent ++ [' ']).length : Nat) : Int) ≤ Int.fdiv C 4 + L + 1
      have hx : (sent ++ [' ']).length = sent.length + 1 := by simp
      rw [hx]
      push_cast
      omega
    · rw [if_neg hemp]
      have hbufne : st.buffer ≠ [] := by
        intro hb
        apply hemp
        rw [List.isEmpty_iff, h4, hb]
        rfl
      have hover := buildOverlap_eq_amended st.buffer.reverse (Int.fdiv C 4) [] []
      simp only [List.length_nil, List.append_nil] at hover
      rw [hover]
      have hstrip : strip st.current = joinWords st.buffer := by
        rw [h4]
        exact strip_joinSp (fun x hx => hclean x (h7 x hx))
      have hclen : st.current.length = (joinWords st.buffer).length + 1 := by
        rw [h4, joinSp_eq_joinWords hbufne]
        simp
      have hchunk : ((strip st.current).length : Int) < C + L + Int.fdiv C 4 := by
        rw [hstrip]
        rcases hlen.2 with hcase | hcase
        · rw [hclen] at hcase
          push_cast at hcase ⊢
          omega
        · rw [hclen] at hcase
          push_cast at hcase ⊢
          omega
      refine ⟨?_, Or.inr ?_⟩
      · intro c hc
        have hc2 : c ∈ st.chunks ++ [strip st.current] := hc
        rcases List.mem_append.mp hc2 with hc1 | hc1
        · exact hlen.1 c hc1
        · rw [List.mem_singleton.mp hc1]
          exact hchunk
      · have hos : ((joinSp (overlapAmendedRev (Int.fdiv C 4) st.buffer.reverse 0)).length : Int)
            ≤ Int.fdiv C 4 := by
          rcases overlapAmendedRev_length st.buffer.reverse (Int.fdiv C 4) 0 with hn | hn
          · rw [hn, joinSp_nil]
            simpa using hO
          · push_cast at hn
            omega
        show (((joinSp (overlapAmendedRev (Int.fdiv C 4) st.buffer.reverse 0) ++ sent ++
          [' ']).length : Nat) : Int) ≤ Int.fdiv C 4 + L + 1
        have hx : (joinSp (overlapAmendedRev (Int.fdiv C 4) st.buffer.reverse 0) ++ sent ++
            [' ']).length =
            (joinSp (overlapAmendedRev (Int.fdiv C 4) st.buffer.reverse 0)).length +
              sent.length + 1 := by
          simp
          omega
        rw [hx]
        push_cast
        omega

theorem chunkLoop_len {C L : Int} (hC : 0 < C) (hL : 0 ≤ L) :
    ∀ (rest processed : List (List Char)) (st : ChunkState),
    (∀ s ∈ processed ++ rest, Clean s) →
    (∀ s ∈ rest, (s.length : Int) ≤ L) →
    Inv processed st → LenInv C L st →
    LenInv C L (chunkLoop C rest st)
  | [], _, st, _, _, _, hlen => hlen
  | s :: rest, processed, st, hclean, hlenS, hinv, hlen => by
    have hcleanP : ∀ x ∈ processed, Clean x := fun x hx => hclean x (List.mem_append_left _ hx)
    have hstep_inv := @stepSent_inv C st s processed hcleanP hinv
    have hstep_len := stepSent_len hC hL (hlenS s (List.mem_cons_self s rest)) hcleanP hinv hlen
    exact chunkLoop_len hC hL rest (processed ++ [s]) (stepSent C st s)
      (by intro x hx
          rcases List.mem_append.mp hx with h1 | h1
          · rcases List.mem_append.mp h1 with h2 | h2
            · exact hclean x (List.mem_append_left _ h2)
            · exact hclean x (List.mem_append_right _
                (by rw [List.mem_singleton.mp h2]; exact List.mem_cons_self s rest))
          · exact hclean x (List.mem_append_right _ (List.mem_cons_of_mem s h1)))
      (fun x hx => hlenS x (List.mem_cons_of_mem s hx))
      hstep_inv hstep_len

theorem pyChunks_len (sents : List (List Char)) (C : Int) (hC : 0 < C)
    (hclean : ∀ s ∈ sents, Clean s) :
    ∀ c ∈ pyChunks sents C,
      (c.length : Int) < C + (maxLen sents : Int) + Int.fdiv C 4 := by
  have hO : 0 ≤ Int.fdiv C 4 := fdiv4_nonneg (le_of_lt hC)
  have hL : (0 : Int) ≤ (maxLen sents : Int) := Int.natCast_nonneg _
  have hinv := chunkLoop_inv (C := C) sents [] ⟨[], [], []⟩ (by simpa using hclean) inv_init
  rw [List.nil_append] at hinv
  have hlen := chunkLoop_len hC hL sents [] ⟨[], [], []⟩ (by simpa using hclean)
    (fun s hs => by exact_mod_cast length_le_maxLen hs) inv_init
    ⟨by intro c hc; exact absurd hc (List.not_mem_nil c), Or.inl (by simpa using hC)⟩
  obtain ⟨decomp, curOv, curH, h1, h2, h3, h4, h5, h6, h7, h8⟩ := hinv
  intro c hc
  unfold pyChunks at hc
  by_cases hemp : (chunkLoop C sents ⟨[], [], []⟩).current.isEmpty
  · rw [if_pos hemp] at hc
    exact hlen.1 c hc
  · rw [if_neg hemp] at hc
    rcases List.mem_append.mp hc with hc1 | hc1
    · exact hlen.1 c hc1
    · rw [List.mem_singleton.mp hc1]
      have hbufne : (chunkLoop C sents ⟨[], [], []⟩).buffer ≠ [] := by
        intro hb
        apply hemp
        rw [List.isEmpty_iff, h4, hb]
        rfl
      have hstrip : strip (chunkLoop C sents ⟨[], [], []⟩).current =
          joinWords (chunkLoop C sents ⟨[], [], []⟩).buffer := by
        rw [h4]
        exact strip_joinSp (fun x hx => hclean x (h7 x hx))
      have hclen : (chunkLoop C sents ⟨[], [], []⟩).current.length =
          (joinWords (chunkLoop C sents ⟨[], [], []⟩).buffer).length + 1 := by
        rw [h4, joinSp_eq_joinWords hbufne]
        simp
      rw [hstrip]
      rcases hlen.2 with hcase | hcase
      · rw [hclen] at hcase
        push_cast at hcase ⊢
        omega
      · rw [hclen] at hcase
        push_cast at hcase ⊢
        omega

/-- C5: for a positive target size `C`, every emitted chunk is strictly
shorter than `C + L + floor(C/4)` where `L` is the document's maximum
sentence length, and no emitted chunk is the empty string. -/
theorem chunk_size_bound (doc : List Char) (C : Int) (hC : 0 < C) :
    ∀ c ∈ docChunks doc C,
      (c.length : Int) < C + (maxLen (cleanSentences (normalize doc)) : Int) + Int.fdiv C 4 ∧
      c ≠ [] := by
  intro c hc
  have hclean := cleanSentences_clean (normalize doc)
  constructor
  · exact pyChunks_len (cleanSentences (normalize doc)) C hC hclean c hc
  · obtain ⟨decomp, hA, hB, hN, hD⟩ :=
      pyChunks_decomp (cleanSentences (normalize doc)) C hclean
    have hc2 : c ∈ pyChunks (cleanSentences (normalize doc)) C := hc
    rw [hA] at hc2
    obtain ⟨p, hp, hpc⟩ := List.mem_map.mp hc2
    rw [← hpc]
    have hpne : p.1 ++ p.2 ≠ [] := by
      intro hx
      exact hN p hp (List.append_eq_nil.mp hx).2
    exact (joinWords_clean hpne (fun b hb => hclean b (hD p hp b hb))).1

/-- Witness for C5 at a concrete document and size. -/
theorem chunk_size_bound_witness :
    (0 : Int) < 8 ∧
    ∀ c ∈ docChunks ("Aa. Bb. Cc. Dd.".toList) 8,
      (c.length : Int) <
        8 + (maxLen (cleanSentences (normalize ("Aa. Bb. Cc. Dd.".toList))) : Int) +
          Int.fdiv 8 4 ∧
      c ≠ [] :=
  ⟨by decide, chunk_size_bound ("Aa. Bb. Cc. Dd.".toList) 8 (by decide)⟩

/-! ### Claim C9: the working-string invariant -/

theorem stepSent_current_joinSp {C : Int} {st : ChunkState} {sent : List Char}
    (h : st.current = joinSp st.buffer) :
    (stepSent C st sent).current = joinSp (stepSent C st sent).buffer := by
  unfold stepSent
  by_cases hlt : ((st.current.length + sent.length + 1 : Nat) : Int) < C
  · rw [if_pos hlt]
    show st.current ++ sent ++ [' '] = joinSp (st.buffer ++ [sent])
    rw [h, joinSp_append]
    simp [joinSp_cons, joinSp_nil]
  · rw [if_neg hlt]
    by_cases hemp : st.current.isEmpty
    · rw [if_pos hemp]
      show sent ++ [' '] = joinSp [sent]
      simp [joinSp_cons, joinSp_nil]
    · rw [if_neg hemp]
      have hover := buildOverlap_eq_amended st.buffer.reverse (Int.fdiv C 4) [] []
      simp only [List.length_nil, List.append_nil] at hover
      rw [hover]
      show joinSp (overlapAmendedRev (Int.fdiv C 4) st.buffer.reverse 0) ++ sent ++ [' '] =
        joinSp (overlapAmendedRev (Int.fdiv C 4) st.buffer.reverse 0 ++ [sent])
      rw [joinSp_append]
      simp [joinSp_cons, joinSp_nil]

theorem chunkLoop_current_joinSp {C : Int} : ∀ (ss : List (List Char)) (st : ChunkState),
    st.current = joinSp st.buffer →
    (chunkLoop C ss st).current = joinSp (chunkLoop C ss st).buffer
  | [], _, h => h
  | s :: ss, st, h =>
    chunkLoop_current_joinSp ss (stepSent C st s) (stepSent_current_joinSp h)

/-- C9: throughout accumulation the working string equals the buffer's
sentences each followed by exactly one space; consequently a chunk
emitted at a flush (and the final chunk) equals the single-space join of
the buffer at emission time. -/
theorem current_chunk_invariant (doc : List Char) (C : Int) :
    (∀ pre : List (List Char),
      (chunkLoop C pre ⟨[], [], []⟩).current = joinSp (chunkLoop C pre ⟨[], [], []⟩).buffer) ∧
    (∀ pre s suf, cleanSentences (normalize doc) = pre ++ s :: suf →
      ¬ (((chunkLoop C pre ⟨[], [], []⟩).current.length + s.length + 1 : Nat) : Int) < C →
      (chunkLoop C pre ⟨[], [], []⟩).current ≠ [] →
      (stepSent C (chunkLoop C pre ⟨[], [], []⟩) s).chunks =
        (chunkLoop C pre ⟨[], [], []⟩).chunks ++
          [joinWords (chunkLoop C pre ⟨[], [], []⟩).buffer]) ∧
    ((chunkLoop C (cleanSentences (normalize doc)) ⟨[], [], []⟩).current ≠ [] →
      pyChunks (cleanSentences (normalize doc)) C =
        (chunkLoop C (cleanSentences (normalize doc)) ⟨[], [], []⟩).chunks ++
          [joinWords (chunkLoop C (cleanSentences (normalize doc)) ⟨[], [], []⟩).buffer]) := by
  refine ⟨fun pre => chunkLoop_current_joinSp pre ⟨[], [], []⟩ rfl, ?_, ?_⟩
  · intro pre s suf hsp hfull hne
    have hcleanpre : ∀ x ∈ pre, Clean x := fun x hx =>
      cleanSentences_clean (normalize doc) x (by rw [hsp]; exact List.mem_append_left _ hx)
    have hinv := chunkLoop_inv (C := C) pre [] ⟨[], [], []⟩ (by simpa using hcleanpre) inv_init
    rw [List.nil_append] at hinv
    obtain ⟨decomp, curOv, curH, h1, h2, h3, h4, h5, h6, h7, h8⟩ := hinv
    unfold stepSent
    rw [if_neg hfull, if_neg (by simpa [List.isEmpty_iff] using hne)]
    show (chunkLoop C pre ⟨[], [], []⟩).chunks ++
        [strip (chunkLoop C pre ⟨[], [], []⟩).current] = _
    rw [h4, strip_joinSp (fun x hx => hcleanpre x (h7 x hx))]
  · intro hne
    have hclean := cleanSentences_clean (normalize doc)
    have hinv := chunkLoop_inv (C := C) (cleanSentences (normalize doc)) [] ⟨[], [], []⟩
      (by simpa using hclean) inv_init
    rw [List.nil_append] at hinv
    obtain ⟨decomp, curOv, curH, h1, h2, h3, h4, h5, h6, h7, h8⟩ := hinv
    unfold pyChunks
    rw [if_neg (by simpa [List.isEmpty_iff] using hne)]
    rw [h4, strip_joinSp (fun x hx => hclean x (h7 x hx))]

/-- Witness for C9 at a concrete flush event. -/
theorem current_chunk_invariant_witness :
    (cleanSentences (normalize ("Aa. Bb. Cc. Dd.".toList)) =
      ["Aa.".toList] ++ ("Bb.".toList) :: ["Cc.".toList]) ∧
    (stepSent 8 (chunkLoop 8 ["Aa.".toList] ⟨[], [], []⟩) ("Bb.".toList)).chunks =
      (chunkLoop 8 ["Aa.".toList] ⟨[], [], []⟩).chunks ++
        [joinWords (chunkLoop 8 ["Aa.".toList] ⟨[], [], []⟩).buffer] :=
  ⟨by decide, (current_chunk_invariant ("Aa. Bb. Cc. Dd.".toList) 8).2.1
    ["Aa.".toList] ("Bb.".toList) ["Cc.".toList] (by decide) (by decide) (by decide)⟩

/-! ### Claim C6: behaviour at non-positive target size -/

theorem chunkLoop_nonpos_finish {C : Int} (hC : C ≤ 0) :
    ∀ (rest : List (List Char)) (cs : List (List Char)) (s : List Char),
    Clean s → (∀ x ∈ rest, Clean x) →
    (chunkLoop C rest ⟨cs, s ++ [' '], [s]⟩).chunks ++
      [strip (chunkLoop C rest ⟨cs, s ++ [' '], [s]⟩).current] = cs ++ s :: rest ∧
    (chunkLoop C rest ⟨cs, s ++ [' '], [s]⟩).current ≠ []
  | [], cs, s, hs, _ => by
    constructor
    · show cs ++ [strip (s ++ [' '])] = cs ++ [s]
      rw [strip_append_space hs]
    · show s ++ [' '] ≠ []
      simp
  | x :: rest, cs, s, hs, hrest => by
    have hO : Int.fdiv C 4 ≤ 0 := fdiv4_nonpos hC
    have hstep : stepSent C ⟨cs, s ++ [' '], [s]⟩ x = ⟨cs ++ [s], x ++ [' '], [x]⟩ := by
      unfold stepSent
      rw [if_neg (by omega)]
      rw [if_neg (by simp)]
      have hov : buildOverlap (Int.fdiv C 4) ([s] : List (List Char)).reverse [] [] =
          ([], []) := by
        show buildOverlap (Int.fdiv C 4) [s] [] [] = ([], [])
        unfold buildOverlap
        rw [if_neg (by simp; omega)]
      rw [hov]
      simp only [List.nil_append]
      rw [strip_append_space hs]
    have hloop : chunkLoop C (x :: rest) ⟨cs, s ++ [' '], [s]⟩ =
        chunkLoop C rest (stepSent C ⟨cs, s ++ [' '], [s]⟩ x) := rfl
    rw [hloop, hstep]
    have ih := chunkLoop_nonpos_finish hC rest (cs ++ [s]) x
      (hrest x (List.mem_cons_self x rest))
      (fun y hy => hrest y (List.mem_cons_of_mem x hy))
    refine ⟨?_, ih.2⟩
    rw [ih.1, List.append_assoc]
    rfl

/-- C6 amended: the code performs no fail-fast validation.  For a
non-positive target size (so the overlap budget is also non-positive)
and a non-empty sentence list, accumulation still runs: every sentence
overflows immediately and is emitted as its own chunk, and no error is
raised. -/
theorem no_failfast_nonpos (sents : List (List Char)) (C : Int) (hC : C ≤ 0)
    (hclean : ∀ s ∈ sents, Clean s) :
    pyChunks sents C = sents := by
  cases sents with
  | nil => rfl
  | cons s rest =>
    have hstep : stepSent C ⟨[], [], []⟩ s = ⟨[], s ++ [' '], [s]⟩ := by
      unfold stepSent
      rw [if_neg (by omega)]
      have hcur : (⟨[], [], []⟩ : ChunkState).current.isEmpty = true := rfl
      rw [if_pos hcur]
    have h := chunkLoop_nonpos_finish hC rest [] s
      (hclean s (List.mem_cons_self s rest))
      (fun y hy => hclean y (List.mem_cons_of_mem s hy))
    unfold pyChunks
    have hloop : chunkLoop C (s :: rest) ⟨[], [], []⟩ =
        chunkLoop C rest (stepSent C ⟨[], [], []⟩ s) := rfl
    rw [hloop, hstep]
    rw [if_neg (by simpa [List.isEmpty_iff] using h.2)]
    simpa using h.1

/-- Witness for the amended C6 at a concrete degenerate configuration. -/
theorem no_failfast_nonpos_witness :
    ((0 : Int) ≤ 0) ∧ (∀ s ∈ [("a".toList)], Clean s) ∧
    pyChunks [("a".toList)] 0 = [("a".toList)] :=
  ⟨le_refl 0, by decide, no_failfast_nonpos [("a".toList)] 0 (le_refl 0) (by decide)⟩

/-- Counterexample to C6 as stated: with target size 0 and a non-empty
sentence list the code does not fail fast; it runs the accumulation and
emits one chunk per sentence. -/
theorem no_failfast_counterexample :
    docChunks ("a. b. c".toList) 0 = ["a.".toList, "b.".toList] ∧
    (["a.".toList, "b.".toList] : List (List Char)) ≠ [] := by
  constructor <;> decide

/-! ### Claims C7 and C10: batch statistics -/

/-- C7: a batch of two documents of which one has empty text yields
`files = 2`, chunk count and character count of the non-empty document
alone; failed (`none`) and empty documents contribute zero chunks and
zero characters to the shared stats and chunk collection. -/
theorem batch_stats (d : List Char) (C : Int) :
    (runBatch C [some d, some []]).2.files = 2 ∧
    (runBatch C [some d, some []]).2.chunks = (docChunks d C).length ∧
    (runBatch C [some d, some []]).2.total_chars = (normalize d).length ∧
    (runBatch C [some d, some []]).1 = docChunks d C ∧
    (∀ acc : List (List Char) × BatchStats, processDoc C acc none = acc) ∧
    (∀ acc : List (List Char) × BatchStats, processDoc C acc (some []) = acc) := by
  have hempty : ∀ acc : List (List Char) × BatchStats, processDoc C acc (some []) = acc := by
    intro acc
    show (acc.1 ++ [], ⟨acc.2.files, acc.2.chunks + ([] : List (List Char)).length,
      acc.2.total_chars + ([] : List Char).length⟩) = acc
    simp
  have hrun : runBatch C [some d, some []] =
      ([] ++ docChunks d C,
       ⟨2, 0 + (docChunks d C).length, 0 + (normalize d).length⟩) := by
    show processDoc C (processDoc C ([], ⟨2, 0, 0⟩) (some d)) (some []) = _
    rw [hempty]
    rfl
  rw [hrun]
  refine ⟨rfl, by simp, by simp, by simp, fun _ => rfl, hempty⟩

/-- C10: for a successfully extracted document whose normalized text
contains no terminator-followed-by-whitespace match (the split yields a
single piece), the full normalized character count is added to
`total_chars` while zero chunks are contributed. -/
theorem no_match_contributes_chars (raw : List Char) (C : Int)
    (acc : List (List Char) × BatchStats)
    (h : (pySplitSent (normalize raw)).length = 1) :
    processDoc C acc (some raw) =
      (acc.1, ⟨acc.2.files, acc.2.chunks,
        acc.2.total_chars + (normalize raw).length⟩) := by
  obtain ⟨x, hx⟩ : ∃ x, pySplitSent (normalize raw) = [x] := by
    cases hxx : pySplitSent (normalize raw) with
    | nil => rw [hxx] at h; simp at h
    | cons a t =>
      cases t with
      | nil => exact ⟨a, rfl⟩
      | cons b t2 => rw [hxx] at h; simp at h
  have hsent : cleanSentences (normalize raw) = [] := by
    unfold cleanSentences
    rw [hx]
    exact cleanPairs_single x
  have hchunks : pyChunks (cleanSentences (normalize raw)) C = [] := by
    rw [hsent]
    rfl
  show (acc.1 ++ pyChunks (cleanSentences (normalize raw)) C,
    (⟨acc.2.files, acc.2.chunks + (pyChunks (cleanSentences (normalize raw)) C).length,
     acc.2.total_chars + (normalize raw).length⟩ : BatchStats)) =
    (acc.1, (⟨acc.2.files, acc.2.chunks,
      acc.2.total_chars + (normalize raw).length⟩ : BatchStats))
  rw [hchunks]
  simp

/-- Witness for C10 at a concrete terminator-free document. -/
theorem no_match_contributes_chars_witness :
    (pySplitSent (normalize ("abc".toList))).length = 1 ∧
    processDoc 7 ([], ⟨1, 0, 0⟩) (some ("abc".toList)) =
      ([], ⟨1, 0, 0 + (normalize ("abc".toList)).length⟩) :=
  ⟨by decide, no_match_contributes_chars ("abc".toList) 7 ([], ⟨1, 0, 0⟩) (by decide)⟩

end Benchmark
